import Mathlib

/-!
Verification of the Monolith CI/CD scaffolder (JoeCelaster/Monolith).

This file shallowly embeds the repository's core text transforms and
file-materialization logic and proves the specification claims about them.

The embedded source functions are:
  * `removeStepBlock` (interactive scaffolder, richer variant) — the
    line-oriented YAML step-block remover;
  * `replacePlaceholders` — the placeholder substitution engine
    (identical in both interactive variants);
  * `writeFile` — the interactive scaffolder's materializer
    (mkdirSync + writeFileSync, unconditional overwrite);
  * `copyFile` / the copy loop of `src/index.js` — the workflow copier
    with a skip-if-exists-unless-forced policy;
  * the variable-map construction and the simple/production orchestration
    of the richer interactive variant, and the deploy-artifact generation
    of the older interactive variant.

Strings are modelled through their character lists.  The JS regex class
backslash-s and `trim` are modelled for the whitespace characters that
occur in the program's documents (space, tab, CR, LF); JS `toLowerCase`
is modelled by ASCII case mapping; the `replace` callback inserts the
replacement value literally, which coincides with JS whenever the value
contains no dollar sign.
-/

namespace Monolith

/-- Whitespace predicate modelling the JS regex class backslash-s
(restricted to space, tab, CR, LF). -/
def isWS (c : Char) : Bool := c = ' ' || c = '\t' || c = '\r' || c = '\n'

/-- Model of the JS `split("\n")` of the scaffolder (`yaml.split("\n")`):
cut the character stream at every newline. -/
def splitNLChars : List Char → List (List Char)
  | [] => [[]]
  | c :: rest =>
    if c = '\n' then [] :: splitNLChars rest
    else
      match splitNLChars rest with
      | [] => [[c]]
      | l :: ls => (c :: l) :: ls

/-- Model of the JS `join("\n")` (`result.join("\n")`). -/
def joinChars : List (List Char) → List Char
  | [] => []
  | [l] => l
  | l :: l2 :: ls => l ++ '\n' :: joinChars (l2 :: ls)

theorem splitNLChars_ne_nil (cs : List Char) : splitNLChars cs ≠ [] := by
  cases cs with
  | nil => simp [splitNLChars]
  | cons c rest =>
    simp only [splitNLChars]
    by_cases h : c = '\n'
    · simp [h]
    · simp only [h, if_false]
      cases splitNLChars rest <;> simp

theorem joinChars_splitNLChars (cs : List Char) :
    joinChars (splitNLChars cs) = cs := by
  induction cs with
  | nil => rfl
  | cons c rest ih =>
    simp only [splitNLChars]
    by_cases h : c = '\n'
    · subst h
      simp only [if_pos rfl]
      have hne := splitNLChars_ne_nil rest
      cases hsp : splitNLChars rest with
      | nil => exact absurd hsp hne
      | cons l ls =>
        rw [hsp] at ih
        simp [joinChars, ih]
    · simp only [h, if_false]
      have hne := splitNLChars_ne_nil rest
      cases hsp : splitNLChars rest with
      | nil => exact absurd hsp hne
      | cons l ls =>
        rw [hsp] at ih
        cases ls with
        | nil => simpa [joinChars] using congrArg (c :: ·) ih
        | cons l2 ls2 => simpa [joinChars] using congrArg (c :: ·) ih

/-- JS `String.prototype.trim` on a line (strip leading and trailing
whitespace). -/
def lineTrim (l : List Char) : List Char :=
  ((l.dropWhile isWS).reverse.dropWhile isWS).reverse

/-- JS `String.prototype.includes`: `includesL sub l` holds when `sub`
occurs contiguously inside `l`. -/
def includesL (sub : List Char) : List Char → Bool
  | [] => sub.isEmpty
  | c :: rest => sub.isPrefixOf (c :: rest) || includesL sub rest

/-- The step-header marker `"- name:"` of `removeStepBlock`. -/
def nameMarker : List Char := "- name:".data

/-- The marker `"- uses:"` of the boundary regex. -/
def usesMarker : List Char := "- uses:".data

/-- The marker `"- run:"` of the boundary regex. -/
def runMarker : List Char := "- run:".data

/-- `trimmed.startsWith("- name:")` — the skip-entry header test of
`removeStepBlock`. -/
def stepHeaderL (l : List Char) : Bool := nameMarker.isPrefixOf (lineTrim l)

/-- The skip-entry condition of `removeStepBlock`:
`trimmed.startsWith("- name:") && trimmed.includes(sub)`. -/
def entryL (sub l : List Char) : Bool :=
  stepHeaderL l && includesL sub (lineTrim l)

/-- Alternation `(name:|uses:|run:)` preceded by `"- "`, as it appears
after the leading whitespace in the boundary regex. -/
def markerBoundary (r : List Char) : Bool :=
  nameMarker.isPrefixOf r || usesMarker.isPrefixOf r || runMarker.isPrefixOf r

/-- The boundary regex of `removeStepBlock`:
`line.match(/^\s+- (name:|uses:|run:)/)` — at least one leading
whitespace character followed immediately by one of the three markers
(the regex quantifier is effectively the maximal whitespace run because
a dash is not whitespace). -/
def isBoundaryL (l : List Char) : Bool :=
  match l with
  | [] => false
  | c :: _ => isWS c && markerBoundary (l.dropWhile isWS)

/-- The skip-exit condition of `removeStepBlock`:
boundary line whose trimmed text does not contain the target substring. -/
def exitsSkipL (sub l : List Char) : Bool :=
  isBoundaryL l && !(includesL sub (lineTrim l))

/-- The scan loop of `removeStepBlock` over the split lines, carrying the
`skipping` flag exactly as the source does. -/
def removeGo (sub : List Char) : List (List Char) → Bool → List (List Char)
  | [], _ => []
  | l :: rest, skipping =>
    if !skipping && entryL sub l then removeGo sub rest true
    else
      let skipping2 := if skipping && exitsSkipL sub l then false else skipping
      if skipping2 then removeGo sub rest skipping2
      else l :: removeGo sub rest skipping2

/-- `removeStepBlock(yaml, stepNameSubstring)` from the richer interactive
scaffolder: split on newlines, scan with the skipping flag, join. -/
def removeStepBlock (yaml sub : String) : String :=
  ⟨joinChars (removeGo sub.data (splitNLChars yaml.data) false)⟩

theorem removeGo_keep_append {sub : List Char} {as : List (List Char)}
    (h : ∀ l ∈ as, entryL sub l = false) (bs : List (List Char)) :
    removeGo sub (as ++ bs) false = as ++ removeGo sub bs false := by
  induction as with
  | nil => rfl
  | cons a as ih =>
    have ha : entryL sub a = false := h a (by simp)
    have hrest : ∀ l ∈ as, entryL sub l = false := fun l hl => h l (by simp [hl])
    simp [removeGo, ha, ih hrest]

theorem removeGo_drop_append {sub : List Char} {as : List (List Char)}
    (h : ∀ l ∈ as, exitsSkipL sub l = false) (bs : List (List Char)) :
    removeGo sub (as ++ bs) true = removeGo sub bs true := by
  induction as with
  | nil => rfl
  | cons a as ih =>
    have ha : exitsSkipL sub a = false := h a (by simp)
    have hrest : ∀ l ∈ as, exitsSkipL sub l = false := fun l hl => h l (by simp [hl])
    simp [removeGo, ha, ih hrest]

theorem removeGo_drop_all {sub : List Char} {as : List (List Char)}
    (h : ∀ l ∈ as, exitsSkipL sub l = false) :
    removeGo sub as true = [] := by
  simpa using removeGo_drop_append h []

theorem removeGo_keep_all {sub : List Char} {as : List (List Char)}
    (h : ∀ l ∈ as, entryL sub l = false) :
    removeGo sub as false = as := by
  simpa [removeGo] using removeGo_keep_append h []

theorem removeGo_enter {sub l : List Char} (h : entryL sub l = true)
    (bs : List (List Char)) :
    removeGo sub (l :: bs) false = removeGo sub bs true := by
  simp [removeGo, h]

theorem removeGo_exit {sub l : List Char} (hb : isBoundaryL l = true)
    (hi : includesL sub (lineTrim l) = false) (bs : List (List Char)) :
    removeGo sub (l :: bs) true = l :: removeGo sub bs false := by
  simp [removeGo, exitsSkipL, hb, hi]

/-- The opening brace character of a placeholder token. -/
def braceL : Char := '\x7b'

/-- The closing brace character of a placeholder token. -/
def braceR : Char := '\x7d'

/-- One attempted match of the placeholder regex built by
`replacePlaceholders` for a key — two opening braces, optional
whitespace, the key, optional whitespace, two closing braces — at the
head of the character stream, returning the remaining suffix on success.
The greedy whitespace runs are exact for the keys this program uses
(nonempty, no whitespace, no braces). -/
def matchPlaceholder (key : List Char) (cs : List Char) : Option (List Char) :=
  match cs with
  | c1 :: c2 :: rest0 =>
    if c1 = braceL ∧ c2 = braceL then
      let rest1 := rest0.dropWhile isWS
      if key.isPrefixOf rest1 then
        match (rest1.drop key.length).dropWhile isWS with
        | d1 :: d2 :: r => if d1 = braceR ∧ d2 = braceR then some r else none
        | _ => none
      else none
    else none
  | _ => none

theorem matchPlaceholder_decomp {key cs rest : List Char}
    (h : matchPlaceholder key cs = some rest) :
    ∃ ws1 ws2, cs = braceL :: braceL ::
        (ws1 ++ key ++ ws2 ++ braceR :: braceR :: rest) ∧
      (∀ c ∈ ws1, isWS c = true) ∧ (∀ c ∈ ws2, isWS c = true) := by
  match cs with
  | [] => simp [matchPlaceholder] at h
  | [c1] => simp [matchPlaceholder] at h
  | c1 :: c2 :: rest0 =>
    simp only [matchPlaceholder] at h
    by_cases hb : c1 = braceL ∧ c2 = braceL
    · rw [if_pos hb] at h
      obtain ⟨hc1, hc2⟩ := hb
      subst hc1; subst hc2
      by_cases hp : key.isPrefixOf (rest0.dropWhile isWS)
      · rw [if_pos hp] at h
        have hws1 : ∀ c ∈ rest0.takeWhile isWS, isWS c = true :=
          fun c hc => List.mem_takeWhile_imp hc
        obtain ⟨tail1, htail1⟩ := List.isPrefixOf_iff_prefix.mp hp
        have hdrop : (rest0.dropWhile isWS).drop key.length = tail1 := by
          rw [← htail1]
          exact List.drop_left key tail1
        rw [hdrop] at h
        have hws2 : ∀ c ∈ tail1.takeWhile isWS, isWS c = true :=
          fun c hc => List.mem_takeWhile_imp hc
        cases hm : tail1.dropWhile isWS with
        | nil => rw [hm] at h; simp at h
        | cons d1 t2 =>
          cases t2 with
          | nil => rw [hm] at h; simp at h
          | cons d2 r =>
            rw [hm] at h
            have h2 : (if d1 = braceR ∧ d2 = braceR then some r else none) =
                some rest := h
            clear h
            by_cases hd : d1 = braceR ∧ d2 = braceR
            · rw [if_pos hd] at h2
              obtain ⟨hd1, hd2⟩ := hd
              subst hd1; subst hd2
              have hr : r = rest := Option.some.inj h2
              subst hr
              refine ⟨rest0.takeWhile isWS, tail1.takeWhile isWS, ?_, hws1, hws2⟩
              have hmain : rest0 = rest0.takeWhile isWS ++ key ++
                  tail1.takeWhile isWS ++ braceR :: braceR :: r := by
                calc rest0
                    = rest0.takeWhile isWS ++ rest0.dropWhile isWS :=
                      (List.takeWhile_append_dropWhile isWS rest0).symm
                  _ = rest0.takeWhile isWS ++ (key ++ tail1) := by rw [htail1]
                  _ = rest0.takeWhile isWS ++ (key ++
                        (tail1.takeWhile isWS ++ tail1.dropWhile isWS)) := by
                      rw [List.takeWhile_append_dropWhile]
                  _ = rest0.takeWhile isWS ++ (key ++
                        (tail1.takeWhile isWS ++ braceR :: braceR :: r)) := by
                      rw [hm]
                  _ = rest0.takeWhile isWS ++ key ++
                        tail1.takeWhile isWS ++ braceR :: braceR :: r := by
                      simp [List.append_assoc]
              exact congrArg (fun t => braceL :: braceL :: t) hmain
            · rw [if_neg hd] at h2
              cases h2
      · rw [if_neg hp] at h
        cases h
    · rw [if_neg hb] at h
      cases h

theorem matchPlaceholder_length_lt {key cs rest : List Char}
    (h : matchPlaceholder key cs = some rest) :
    rest.length < cs.length := by
  obtain ⟨ws1, ws2, hcs, -, -⟩ := matchPlaceholder_decomp h
  subst hcs
  simp
  omega

/-- The global replacement `out.replace(re, val)` of `replacePlaceholders`:
scan left to right, replace each non-overlapping match of the placeholder
regex by the value, do not rescan the inserted value. -/
def replaceAllP (key val : List Char) (cs : List Char) : List Char :=
  match cs with
  | [] => []
  | c :: cs2 =>
    match h : matchPlaceholder key (c :: cs2) with
    | some rest => val ++ replaceAllP key val rest
    | none => c :: replaceAllP key val cs2
termination_by cs.length
decreasing_by
  · exact matchPlaceholder_length_lt h
  · simp

theorem replaceAllP_nil (key val : List Char) : replaceAllP key val [] = [] := by
  rw [replaceAllP]

theorem replaceAllP_cons_match {key val : List Char} {c : Char}
    {cs rest : List Char}
    (h : matchPlaceholder key (c :: cs) = some rest) :
    replaceAllP key val (c :: cs) = val ++ replaceAllP key val rest := by
  rw [replaceAllP]
  split
  · next rest2 h2 =>
    rw [h] at h2
    cases h2
    rfl
  · next h2 => rw [h] at h2; cases h2

theorem replaceAllP_cons_none {key val : List Char} {c : Char} {cs : List Char}
    (h : matchPlaceholder key (c :: cs) = none) :
    replaceAllP key val (c :: cs) = c :: replaceAllP key val cs := by
  rw [replaceAllP]
  split
  · next rest2 h2 => rw [h] at h2; cases h2
  · rfl

/-- Whether the placeholder regex for `key` matches anywhere in the text:
the scan of a global `replace` finds a match at some position. -/
def hasMatchP (key : List Char) : List Char → Bool
  | [] => false
  | c :: cs => (matchPlaceholder key (c :: cs)).isSome || hasMatchP key cs

theorem replaceAllP_of_not_hasMatchP {key val : List Char} {cs : List Char}
    (h : hasMatchP key cs = false) : replaceAllP key val cs = cs := by
  induction cs with
  | nil => exact replaceAllP_nil key val
  | cons c cs ih =>
    simp only [hasMatchP, Bool.or_eq_false_iff] at h
    have hnone : matchPlaceholder key (c :: cs) = none :=
      Option.not_isSome_iff_eq_none.mp (by simp [h.1])
    rw [replaceAllP_cons_none hnone, ih h.2]

/-- A key is identifier-like, as all keys of this program's variable maps
are: nonempty and free of whitespace and braces.  For such keys the
greedy-whitespace model of the placeholder regex is exact. -/
def goodKeyL (key : List Char) : Bool :=
  !key.isEmpty && key.all (fun c => !isWS c && !(c = braceL) && !(c = braceR))

theorem goodKeyL_ne_nil {key : List Char} (h : goodKeyL key = true) :
    key ≠ [] := by
  intro hc
  subst hc
  simp [goodKeyL] at h

theorem goodKeyL_mem {key : List Char} (h : goodKeyL key = true) {c : Char}
    (hc : c ∈ key) : isWS c = false ∧ c ≠ braceL ∧ c ≠ braceR := by
  simp only [goodKeyL, Bool.and_eq_true, List.all_eq_true] at h
  have := h.2 c hc
  simp only [Bool.and_eq_true, Bool.not_eq_true] at this
  exact ⟨by simpa using this.1.1, by simpa using this.1.2, by simpa using this.2⟩

theorem matchPlaceholder_tok {key : List Char} (hg : goodKeyL key = true)
    (rest : List Char) :
    matchPlaceholder key (braceL :: braceL :: (key ++ braceR :: braceR :: rest))
      = some rest := by
  cases hk : key with
  | nil => exact absurd hk (goodKeyL_ne_nil hg)
  | cons k0 ks =>
    have hk0 : isWS k0 = false := by
      have := goodKeyL_mem hg (hk ▸ List.mem_cons_self k0 ks)
      exact this.1
    simp only [matchPlaceholder]
    rw [if_pos (⟨trivial, trivial⟩ : True ∧ True)]
    have hdw : ((k0 :: ks) ++ braceR :: braceR :: rest).dropWhile isWS
        = (k0 :: ks) ++ braceR :: braceR :: rest := by
      rw [List.cons_append]
      exact List.dropWhile_cons_of_neg (by simp [hk0])
    rw [hdw]
    have hpre : (k0 :: ks).isPrefixOf ((k0 :: ks) ++ braceR :: braceR :: rest)
        = true :=
      List.isPrefixOf_iff_prefix.mpr (List.prefix_append _ _)
    rw [if_pos hpre]
    rw [List.drop_left]
    have hdw2 : (braceR :: braceR :: rest).dropWhile isWS
        = braceR :: braceR :: rest :=
      List.dropWhile_cons_of_neg (by simp [isWS, braceR])
    rw [hdw2]
    simp

theorem matchPlaceholder_none_two {key : List Char} {c1 c2 : Char}
    (hc : ¬(c1 = braceL ∧ c2 = braceL)) (l : List Char) :
    matchPlaceholder key (c1 :: c2 :: l) = none := by
  simp only [matchPlaceholder]
  rw [if_neg hc]

theorem matchPlaceholder_none_head {key : List Char} {c : Char}
    (hc : c ≠ braceL) (l : List Char) :
    matchPlaceholder key (c :: l) = none := by
  cases l with
  | nil => rfl
  | cons c2 l2 => exact matchPlaceholder_none_two (fun h => hc h.1) l2

theorem replaceAllP_seg {key val seg : List Char}
    (hseg : ∀ c ∈ seg, c ≠ braceL) (rest : List Char) :
    replaceAllP key val (seg ++ rest) = seg ++ replaceAllP key val rest := by
  induction seg with
  | nil => rfl
  | cons c cs ih =>
    have hc : c ≠ braceL := hseg c (by simp)
    rw [List.cons_append,
      replaceAllP_cons_none (matchPlaceholder_none_head hc _),
      ih (fun x hx => hseg x (by simp [hx]))]
    rfl

/-- The character list of the key `FOO` of claim C6. -/
def fooKey : List Char := 'F' :: 'O' :: 'O' :: []

/-- The character list of the untouched placeholder token of claim C6. -/
def fooTok : List Char :=
  braceL :: braceL :: 'F' :: 'O' :: 'O' :: braceR :: braceR :: []

theorem matchPlaceholder_fooTok_none {key : List Char}
    (hg : goodKeyL key = true) (hne : key ≠ fooKey) (s : List Char) :
    matchPlaceholder key (fooTok ++ s) = none := by
  cases hm : matchPlaceholder key (fooTok ++ s) with
  | none => rfl
  | some rest =>
    exfalso
    obtain ⟨ws1, ws2, hcs, hws1, hws2⟩ := matchPlaceholder_decomp hm
    have hcs2 : ('F' : Char) :: 'O' :: 'O' :: braceR :: braceR :: s
        = ws1 ++ key ++ ws2 ++ braceR :: braceR :: rest := by
      have : fooTok ++ s = braceL :: braceL ::
          ('F' :: 'O' :: 'O' :: braceR :: braceR :: s) := rfl
      rw [this] at hcs
      exact (List.cons.inj (List.cons.inj hcs).2).2
    cases hw1 : ws1 with
    | cons w ws =>
      rw [hw1] at hcs2
      simp only [List.cons_append, List.append_assoc] at hcs2
      have hwF : w = 'F' := ((List.cons.inj hcs2).1).symm
      have : isWS w = true := hws1 w (by simp [hw1])
      rw [hwF] at this
      simp [isWS] at this
    | nil =>
      rw [hw1] at hcs2
      simp only [List.nil_append, List.append_assoc] at hcs2
      cases hk : key with
      | nil => exact goodKeyL_ne_nil hg hk
      | cons k0 ks =>
        rw [hk] at hcs2
        simp only [List.cons_append] at hcs2
        have hk0 : k0 = 'F' := ((List.cons.inj hcs2).1).symm
        have hcs3 := (List.cons.inj hcs2).2
        cases hks : ks with
        | nil =>
          rw [hks] at hcs3
          simp only [List.nil_append] at hcs3
          cases hw2 : ws2 with
          | cons w ws =>
            rw [hw2] at hcs3
            simp only [List.cons_append] at hcs3
            have hwO : w = 'O' := ((List.cons.inj hcs3).1).symm
            have : isWS w = true := hws2 w (by simp [hw2])
            rw [hwO] at this
            simp [isWS] at this
          | nil =>
            rw [hw2] at hcs3
            simp only [List.nil_append] at hcs3
            have : ('O' : Char) = braceR := (List.cons.inj hcs3).1
            simp [braceR] at this
        | cons k1 ks2 =>
          rw [hks] at hcs3
          simp only [List.cons_append] at hcs3
          have hk1 : k1 = 'O' := ((List.cons.inj hcs3).1).symm
          have hcs4 := (List.cons.inj hcs3).2
          cases hks2 : ks2 with
          | nil =>
            rw [hks2] at hcs4
            simp only [List.nil_append] at hcs4
            cases hw2 : ws2 with
            | cons w ws =>
              rw [hw2] at hcs4
              simp only [List.cons_append] at hcs4
              have hwO : w = 'O' := ((List.cons.inj hcs4).1).symm
              have : isWS w = true := hws2 w (by simp [hw2])
              rw [hwO] at this
              simp [isWS] at this
            | nil =>
              rw [hw2] at hcs4
              simp only [List.nil_append] at hcs4
              have : ('O' : Char) = braceR := (List.cons.inj hcs4).1
              simp [braceR] at this
          | cons k2 ks3 =>
            rw [hks2] at hcs4
            simp only [List.cons_append] at hcs4
            have hk2 : k2 = 'O' := ((List.cons.inj hcs4).1).symm
            have hcs5 := (List.cons.inj hcs4).2
            cases hks3 : ks3 with
            | nil =>
              apply hne
              rw [hk, hks, hks2, hks3, hk0, hk1, hk2]
              rfl
            | cons k3 ks4 =>
              rw [hks3] at hcs5
              simp only [List.cons_append] at hcs5
              have hk3 : k3 = braceR := ((List.cons.inj hcs5).1).symm
              have hmem : k3 ∈ key := by
                rw [hk, hks, hks2, hks3]
                simp
              have := (goodKeyL_mem hg hmem).2.2
              exact this hk3

theorem matchPlaceholder_fooTok_split {key : List Char}
    (hg : goodKeyL key = true) (hne : key ≠ fooKey) {p s rest : List Char}
    (h : matchPlaceholder key (p ++ fooTok ++ s) = some rest) :
    ∃ q, rest = q ++ fooTok ++ s ∧ q.length < p.length := by
  obtain ⟨ws1, ws2, hcs, hws1, hws2⟩ := matchPlaceholder_decomp h
  -- group the consumed region into a single list `t`
  have hcs2 : p ++ (fooTok ++ s) =
      (braceL :: braceL :: (ws1 ++ key ++ ws2 ++ braceR :: braceR :: []))
        ++ rest := by
    rw [List.append_assoc] at hcs
    rw [hcs]
    simp [List.append_assoc]
  have hkeylen : 1 ≤ key.length := by
    cases hkc : key with
    | nil => exact absurd hkc (goodKeyL_ne_nil hg)
    | cons a l => simp
  have hu : ∀ c ∈ ws1 ++ key ++ ws2 ++ braceR :: braceR :: ([] : List Char),
      c ≠ braceL := by
    intro c hc
    simp only [List.append_assoc, List.mem_append, List.mem_cons,
      List.not_mem_nil, or_false] at hc
    rcases hc with hc | hc | hc | hc | hc
    · have := hws1 c hc
      intro hcb
      rw [hcb] at this
      simp [isWS, braceL] at this
    · exact (goodKeyL_mem hg hc).2.1
    · have := hws2 c hc
      intro hcb
      rw [hcb] at this
      simp [isWS, braceL] at this
    · rw [hc]
      simp [braceR, braceL]
    · rw [hc]
      simp [braceR, braceL]
  rcases List.append_eq_append_iff.mp hcs2 with ⟨a2, ha2, hfs⟩ | ⟨q, hq, hrest⟩
  · -- the consumed region reaches to or past the protected token
    cases ha2head : a2 with
    | nil =>
      -- consumed exactly p: the remainder starts with the protected token
      rw [ha2head] at hfs ha2
      simp only [List.nil_append] at hfs
      refine ⟨[], by rw [← hfs]; simp, ?_⟩
      have hlen := congrArg List.length ha2
      simp only [List.length_cons, List.length_append, List.length_nil]
        at hlen
      simp only [List.length_nil]
      omega
    | cons x xs =>
      exfalso
      rw [ha2head] at hfs ha2
      have hfs2 : braceL :: (braceL :: 'F' :: 'O' :: 'O' ::
          braceR :: braceR :: s) = x :: (xs ++ rest) := by
        calc braceL :: (braceL :: 'F' :: 'O' :: 'O' :: braceR :: braceR :: s)
            = fooTok ++ s := rfl
          _ = (x :: xs) ++ rest := hfs
          _ = x :: (xs ++ rest) := by simp
      have hx : x = braceL := ((List.cons.inj hfs2).1).symm
      have hsuff : (x :: xs) <:+
          braceL :: braceL :: (ws1 ++ key ++ ws2 ++ braceR :: braceR :: []) :=
        ⟨p, ha2.symm⟩
      rcases List.suffix_cons_iff.mp hsuff with heq | hsuff2
      · -- the match consumed nothing of p: contradiction with the head lemma
        have hp0 : p = [] := by
          have hlen := congrArg List.length ha2
          rw [heq] at hlen
          simp only [List.length_append] at hlen
          have : p.length = 0 := by omega
          exact List.length_eq_zero.mp this
        rw [hp0] at h
        simp only [List.nil_append] at h
        rw [matchPlaceholder_fooTok_none hg hne s] at h
        cases h
      · rcases List.suffix_cons_iff.mp hsuff2 with heq | hsuff3
        · -- the suffix starts one character into the consumed region
          have hxs : xs = ws1 ++ key ++ ws2 ++ braceR :: braceR :: [] :=
            (List.cons.inj heq).2
          have htail : braceL :: ('F' :: 'O' :: 'O' ::
              braceR :: braceR :: s) = xs ++ rest :=
            (List.cons.inj hfs2).2
          cases hxs0 : xs with
          | nil =>
            rw [hxs0] at hxs
            have hlen := congrArg List.length hxs
            simp only [List.length_append, List.length_cons,
              List.length_nil] at hlen
            omega
          | cons x0 xs2 =>
            rw [hxs0] at htail hxs
            have hx0 : x0 = braceL := ((List.cons.inj htail).1).symm
            have hx0mem : x0 ∈ ws1 ++ key ++ ws2 ++ braceR :: braceR :: [] := by
              rw [← hxs]
              simp
            exact hu x0 hx0mem hx0
        · -- the suffix lies inside the brace-free interior
          obtain ⟨pre, hpre⟩ := hsuff3
          have hxmem : x ∈ ws1 ++ key ++ ws2 ++ braceR :: braceR :: [] := by
            rw [← hpre]
            simp
          exact hu x hxmem hx
  · -- the consumed region lies inside p
    refine ⟨q, by rw [hrest, List.append_assoc], ?_⟩
    have hlen := congrArg List.length hq
    simp only [List.length_append, List.length_cons] at hlen
    omega

theorem replaceAllP_fooTok {key val : List Char} (hg : goodKeyL key = true)
    (hne : key ≠ fooKey) (s : List Char) :
    replaceAllP key val (fooTok ++ s) = fooTok ++ replaceAllP key val s := by
  have h0 : matchPlaceholder key
      (braceL :: braceL :: 'F' :: 'O' :: 'O' :: braceR :: braceR :: s)
        = none := matchPlaceholder_fooTok_none hg hne s
  show replaceAllP key val
      (braceL :: braceL :: 'F' :: 'O' :: 'O' :: braceR :: braceR :: s)
    = fooTok ++ replaceAllP key val s
  rw [replaceAllP_cons_none h0]
  rw [replaceAllP_cons_none (matchPlaceholder_none_two
    (fun hc => by simpa [braceL] using hc.2) _)]
  rw [replaceAllP_cons_none (matchPlaceholder_none_head
    (by simp [braceL]) _)]
  rw [replaceAllP_cons_none (matchPlaceholder_none_head
    (by simp [braceL]) _)]
  rw [replaceAllP_cons_none (matchPlaceholder_none_head
    (by simp [braceL]) _)]
  rw [replaceAllP_cons_none (matchPlaceholder_none_head
    (by simp [braceL, braceR]) _)]
  rw [replaceAllP_cons_none (matchPlaceholder_none_head
    (by simp [braceL, braceR]) _)]
  rfl

theorem replaceAllP_protects {key val : List Char} (hg : goodKeyL key = true)
    (hne : key ≠ fooKey) :
    ∀ n p s, p.length ≤ n →
      ∃ q, replaceAllP key val (p ++ fooTok ++ s)
        = q ++ fooTok ++ replaceAllP key val s := by
  intro n
  induction n with
  | zero =>
    intro p s hp
    have hp0 : p = [] := List.length_eq_zero.mp (Nat.le_zero.mp hp)
    subst hp0
    exact ⟨[], by simpa using replaceAllP_fooTok hg hne s⟩
  | succ n ih =>
    intro p s hp
    cases p with
    | nil => exact ⟨[], by simpa using replaceAllP_fooTok hg hne s⟩
    | cons c p2 =>
      have hshape : (c :: p2) ++ fooTok ++ s = c :: (p2 ++ fooTok ++ s) := by
        simp
      cases hm : matchPlaceholder key (c :: (p2 ++ fooTok ++ s)) with
      | none =>
        obtain ⟨q, hq⟩ := ih p2 s (by
          simp only [List.length_cons] at hp
          omega)
        refine ⟨c :: q, ?_⟩
        rw [hshape, replaceAllP_cons_none hm, hq]
        simp
      | some rest =>
        have hm2 : matchPlaceholder key ((c :: p2) ++ fooTok ++ s)
            = some rest := by rw [hshape]; exact hm
        obtain ⟨q0, hq0, hlt⟩ := matchPlaceholder_fooTok_split hg hne hm2
        subst hq0
        obtain ⟨q1, hq1⟩ := ih q0 s (by
          simp only [List.length_cons] at hlt hp
          omega)
        refine ⟨val ++ q1, ?_⟩
        rw [hshape, replaceAllP_cons_match hm, hq1]
        simp

/-- `replacePlaceholders(str, vars)` from both interactive scaffolder
variants: fold the per-key global replacement over the entries of the
variable map in order, substituting the empty string for an absent
(undefined/null) value. -/
def replacePlaceholders (str : String) (vars : List (String × Option String)) :
    String :=
  ⟨vars.foldl (fun out kv => replaceAllP kv.1.data (kv.2.getD "").data out)
    str.data⟩

theorem foldl_replace_protects (vars : List (String × Option String))
    (h : ∀ kv ∈ vars, goodKeyL kv.1.data = true ∧ kv.1 ≠ "FOO") :
    ∀ p s : List Char, ∃ q,
      vars.foldl (fun out kv => replaceAllP kv.1.data (kv.2.getD "").data out)
        (p ++ fooTok ++ s)
      = q ++ fooTok ++
        vars.foldl (fun out kv => replaceAllP kv.1.data (kv.2.getD "").data out)
          s := by
  induction vars with
  | nil => exact fun p s => ⟨p, rfl⟩
  | cons kv rest ih =>
    intro p s
    have hkv := h kv (by simp)
    have hne : kv.1.data ≠ fooKey := by
      intro hc
      exact hkv.2 (String.ext (by rw [hc]; rfl))
    obtain ⟨q0, hq0⟩ :=
      replaceAllP_protects hkv.1 hne p.length p s (Nat.le_refl _)
    simp only [List.foldl_cons]
    rw [hq0]
    exact ih (fun kv2 hm => h kv2 (by simp [hm])) q0 _

/-! ## Filesystems and the two materializers -/

/-- A filesystem fragment: a partial map from paths to file contents.
Directories are implicit (`mkdirSync` only ensures parents exist and does
not affect file contents). -/
def FS : Type := String → Option String

/-- `fs.writeFileSync(p, c)`: the file at `p` now holds `c`. -/
def writeFS (p c : String) (fs : FS) : FS :=
  fun q => if q = p then some c else fs q

/-- `fs.existsSync(p)` restricted to files. -/
def existsFS (p : String) (fs : FS) : Bool := (fs p).isSome

/-- `writeFile(targetPath, content)` of both interactive scaffolder
variants: `mkdirSync(dirname, recursive)` followed by an unconditional
`writeFileSync`. -/
def writeFile (targetPath content : String) (fs : FS) : FS :=
  writeFS targetPath content fs

/-- Outcome of one `copyFile` call in `src/index.js`: the log line it
prints distinguishes a copy from a skip. -/
inductive CopyStatus where
  | written
  | skipped
deriving DecidableEq, Repr

/-- `copyFile(src, dest)` of `src/index.js`: skip when the destination
exists and `--force` was not given, otherwise ensure the parent directory
exists and copy.  The source file's bytes are the `content` argument. -/
def copyFile (force : Bool) (fs : FS) (dest content : String) :
    FS × CopyStatus :=
  if existsFS dest fs && !force then (fs, CopyStatus.skipped)
  else (writeFS dest content fs, CopyStatus.written)

/-- The recursive walk of `copyDir` in `src/index.js`, flattened to the
list of (destination, template content) pairs it visits, applying
`copyFile` to each in order and recording the per-file outcomes. -/
def runCopy (force : Bool) (files : List (String × String)) (fs : FS) :
    FS × List CopyStatus :=
  match files with
  | [] => (fs, [])
  | (d, c) :: rest =>
    let r := copyFile force fs d c
    let r2 := runCopy force rest r.1
    (r2.1, r.2 :: r2.2)

/-! ## Configuration, presets, variable maps and the orchestrators -/

/-- JS `x || d` for an optional number read from a preset JSON file
(`undefined` and `0` are falsy). -/
def orElseNat (o : Option Nat) (d : Nat) : Nat :=
  match o with
  | some n => if n = 0 then d else n
  | none => d

/-- JS `x || d` for an optional string read from a preset JSON file
(`undefined` and the empty string are falsy). -/
def orElseStr (o : Option String) (d : String) : String :=
  match o with
  | some s => if s = "" then d else s
  | none => d

/-- JS `String.prototype.trim` at the string level. -/
def trimStr (s : String) : String := ⟨lineTrim s.data⟩

/-- Membership in the character class `[a-z0-9-_]` of the sanitising
regex. -/
def isSlugChar (c : Char) : Bool :=
  ('a' ≤ c && c ≤ 'z') || ('0' ≤ c && c ≤ '9') || c = '-' || c = '_'

/-- `projectName.toLowerCase().replace(/[^a-z0-9-_]/g, "")` — lowercase
first (modelled by ASCII case mapping), then strip every character
outside `[a-z0-9-_]`. -/
def imageNameOf (projectName : String) : String :=
  ⟨(projectName.data.map Char.toLower).filter isSlugChar⟩

/-- The per-stack preset record loaded from `presets/<stack>.json`. -/
structure Preset where
  defaultPort : Option Nat
  runtimeVersion : Option String
  installCommand : String
  lintCommand : String
  testCommand : String
  buildCommand : Option String
  healthPath : Option String

/-- The answers collected by the richer interactive variant. -/
structure Config where
  projectName : String
  stack : String
  prodBranch : String
  stagingBranch : String
  installCommand : String
  lintCommand : String
  testCommand : String
  useDocker : Bool
  mode : String
  migrationCommand : String

/-- The variable map of the richer interactive variant, in the insertion
order of its `vars` object literal. -/
def buildVarsRich (cfg : Config) (preset : Preset) :
    List (String × Option String) :=
  [("APP_NAME", some (imageNameOf cfg.projectName)),
   ("IMAGE_NAME", some (imageNameOf cfg.projectName)),
   ("PORT", some (toString (orElseNat preset.defaultPort 3000))),
   ("RUNTIME_VERSION", some (orElseStr preset.runtimeVersion "latest")),
   ("INSTALL_COMMAND", some cfg.installCommand),
   ("LINT_COMMAND", some cfg.lintCommand),
   ("TEST_COMMAND", some cfg.testCommand),
   ("BUILD_COMMAND", some (orElseStr preset.buildCommand "echo \"No build step\"")),
   ("PROD_BRANCH", some cfg.prodBranch),
   ("STAGING_BRANCH", some cfg.stagingBranch),
   ("MIGRATION_COMMAND", some (trimStr cfg.migrationCommand)),
   ("HEALTH_PATH", some (orElseStr preset.healthPath "/health"))]

/-- The simple-mode branch of the richer variant's `main`: one combined
workflow, then the Docker files (`Dockerfile` unconditionally,
`.dockerignore` only when absent).  `repo` is the template repository
(`readTemplate`). -/
def mainSimple (cfg : Config) (preset : Preset) (repo : String → String)
    (fs : FS) : FS :=
  let vars := buildVarsRich cfg preset
  let fs1 := writeFile ".github/workflows/monolith.yml"
    (replacePlaceholders
      (repo ("workflows/monolith." ++ cfg.stack ++ ".yml.template")) vars) fs
  if cfg.useDocker then
    let fs2 := writeFile "Dockerfile"
      (replacePlaceholders
        (repo ("docker/Dockerfile." ++ cfg.stack ++ ".template")) vars) fs1
    if existsFS ".dockerignore" fs2 then fs2
    else writeFile ".dockerignore" (repo "docker/.dockerignore.template") fs2
  else fs1

/-- The production-mode branch of the richer variant's `main`: five
workflow files (the deploy template loses its migration step block first
when the trimmed migration command is empty), three scripts, then the
Docker files.  `makeExecutable` does not change contents and is omitted
from the file map. -/
def mainProduction (cfg : Config) (preset : Preset) (repo : String → String)
    (fs0 : FS) : FS :=
  let vars := buildVarsRich cfg preset
  let fs1 := writeFile ".github/workflows/ci.yml"
    (replacePlaceholders
      (repo ("workflows/ci." ++ cfg.stack ++ ".yml.template")) vars) fs0
  let buildTplName := if cfg.useDocker then "workflows/build.docker.yml.template"
    else "workflows/build.basic.yml.template"
  let fs2 := writeFile ".github/workflows/build.yml"
    (replacePlaceholders (repo buildTplName) vars) fs1
  let deployTpl0 := repo "workflows/deploy.yml.template"
  let deployTpl := if trimStr cfg.migrationCommand = "" then
      removeStepBlock deployTpl0 "Run migrations"
    else deployTpl0
  let fs3 := writeFile ".github/workflows/deploy.yml"
    (replacePlaceholders deployTpl vars) fs2
  let fs4 := writeFile ".github/workflows/rollback.yml"
    (replacePlaceholders (repo "workflows/rollback.yml.template") vars) fs3
  let fs5 := writeFile ".github/workflows/security-scan.yml"
    (replacePlaceholders (repo "workflows/security-scan.yml.template") vars) fs4
  let fs6 := writeFile "scripts/deploy.sh"
    (replacePlaceholders (repo "scripts/deploy.sh.template") vars) fs5
  let fs7 := writeFile "scripts/rollback.sh"
    (replacePlaceholders (repo "scripts/rollback.sh.template") vars) fs6
  let fs8 := writeFile "scripts/health-check.sh"
    (replacePlaceholders (repo "scripts/health-check.sh.template") vars) fs7
  if cfg.useDocker then
    let fs9 := writeFile "Dockerfile"
      (replacePlaceholders
        (repo ("docker/Dockerfile." ++ cfg.stack ++ ".template")) vars) fs8
    if existsFS ".dockerignore" fs9 then fs9
    else writeFile ".dockerignore" (repo "docker/.dockerignore.template") fs9
  else fs8

/-- The richer variant's `main` after the prompts: the simple branch
returns early, everything else runs the production sequence. -/
def mainRich (cfg : Config) (preset : Preset) (repo : String → String)
    (fs : FS) : FS :=
  if cfg.mode = "simple" then mainSimple cfg preset repo fs
  else mainProduction cfg preset repo fs

/-- The answers collected by the older interactive variant. -/
structure ConfigOld where
  projectName : String
  stack : String
  prodBranch : String
  installCommand : String
  testCommand : String
  useDocker : Bool
  migrationCommand : String

/-- The variable map of the older interactive variant: `APP_NAME` is the
raw project name, only `IMAGE_NAME` is sanitised, and the migration
command is stored untrimmed. -/
def buildVarsOld (cfg : ConfigOld) (preset : Preset) :
    List (String × Option String) :=
  [("APP_NAME", some cfg.projectName),
   ("IMAGE_NAME", some (imageNameOf cfg.projectName)),
   ("PORT", some (toString (orElseNat preset.defaultPort 3000))),
   ("INSTALL_COMMAND", some cfg.installCommand),
   ("TEST_COMMAND", some cfg.testCommand),
   ("BUILD_COMMAND", some (orElseStr preset.buildCommand "echo \"No build step\"")),
   ("PROD_BRANCH", some cfg.prodBranch),
   ("MIGRATION_COMMAND", some cfg.migrationCommand)]

/-- JS `String.prototype.toLowerCase` on a line (ASCII model). -/
def lowerL (l : List Char) : List Char := l.map Char.toLower

/-- The older variant's migration stripping: drop every line containing
`MIGRATION_COMMAND` or (case-insensitively) `run migrations`. -/
def filterMigration (tpl : String) : String :=
  ⟨joinChars ((splitNLChars tpl.data).filter
    (fun l => !includesL ("MIGRATION_COMMAND".data) l
      && !includesL ("run migrations".data) (lowerL l)))⟩

/-- The older variant's deploy-artifact generation: strip the migration
lines when the migration command is empty or blank, then substitute. -/
def oldDeployYml (tplDeploy mc : String)
    (vars : List (String × Option String)) : String :=
  let t := if mc = "" ∨ trimStr mc = "" then filterMigration tplDeploy
    else tplDeploy
  replacePlaceholders t vars

/-! ## Claim theorems -/

/-- C5: for every document and every `nameSubstring` that occurs in no
step-header line of the document, `removeStepBlock` returns the document
unchanged, byte for byte.  (The function is total by construction, so it
never raises an error for any input.) -/
theorem c5_removeStepBlock_identity (yaml sub : String)
    (h : ∀ l ∈ splitNLChars yaml.data, stepHeaderL l = true →
      includesL sub.data (lineTrim l) = false) :
    removeStepBlock yaml sub = yaml := by
  unfold removeStepBlock
  have hk : ∀ l ∈ splitNLChars yaml.data, entryL sub.data l = false := by
    intro l hl
    unfold entryL
    cases hh : stepHeaderL l
    · simp
    · simp [h l hl hh]
  rw [removeGo_keep_all hk, joinChars_splitNLChars]

/-- Witness for C5 at a concrete document: no step header mentions
`deploy`, so removal is the identity. -/
theorem c5_witness :
    removeStepBlock "jobs:\n  steps:\n      - name: build\n        run: x"
      "deploy"
      = "jobs:\n  steps:\n      - name: build\n        run: x" :=
  c5_removeStepBlock_identity
    "jobs:\n  steps:\n      - name: build\n        run: x" "deploy" (by decide)

/-- C2: while skipping, a boundary line that itself contains the target
substring does not end skipping and is dropped; hence when every step
header (and every boundary line) contains `nameSubstring`, the result is
exactly the lines before the first header, and everything from that
header to the end of the document is removed. -/
theorem c2_removeStepBlock_all_match (yaml sub : String) (i : Nat)
    (hi : i < (splitNLChars yaml.data).length)
    (hhead : stepHeaderL ((splitNLChars yaml.data).get ⟨i, hi⟩) = true)
    (hfirst : ∀ l ∈ (splitNLChars yaml.data).take i, stepHeaderL l = false)
    (hall : ∀ l ∈ splitNLChars yaml.data, stepHeaderL l = true →
      includesL sub.data (lineTrim l) = true)
    (hbound : ∀ l ∈ splitNLChars yaml.data, isBoundaryL l = true →
      includesL sub.data (lineTrim l) = true) :
    removeStepBlock yaml sub
      = ⟨joinChars ((splitNLChars yaml.data).take i)⟩ := by
  unfold removeStepBlock
  congr 1
  congr 1
  have hdecomp : splitNLChars yaml.data
      = (splitNLChars yaml.data).take i ++
        ((splitNLChars yaml.data).get ⟨i, hi⟩ ::
          (splitNLChars yaml.data).drop (i + 1)) := by
    conv_lhs => rw [← List.take_append_drop i (splitNLChars yaml.data)]
    congr 1
    rw [List.drop_eq_getElem_cons hi]
    simp
  have hentry : entryL sub.data ((splitNLChars yaml.data).get ⟨i, hi⟩)
      = true := by
    unfold entryL
    rw [hhead, hall _ (List.get_mem _ _ hi) hhead]
    rfl
  have hkeep : ∀ l ∈ (splitNLChars yaml.data).take i,
      entryL sub.data l = false := by
    intro l hl
    unfold entryL
    rw [hfirst l hl]
    rfl
  have hstay : ∀ l ∈ (splitNLChars yaml.data).drop (i + 1),
      exitsSkipL sub.data l = false := by
    intro l hl
    unfold exitsSkipL
    cases hb : isBoundaryL l
    · rfl
    · rw [hbound l (List.mem_of_mem_drop hl) hb]
      rfl
  calc removeGo sub.data (splitNLChars yaml.data) false
      = removeGo sub.data ((splitNLChars yaml.data).take i ++
          ((splitNLChars yaml.data).get ⟨i, hi⟩ ::
            (splitNLChars yaml.data).drop (i + 1))) false := by
        rw [← hdecomp]
    _ = (splitNLChars yaml.data).take i ++
          removeGo sub.data ((splitNLChars yaml.data).get ⟨i, hi⟩ ::
            (splitNLChars yaml.data).drop (i + 1)) false :=
        removeGo_keep_append hkeep _
    _ = (splitNLChars yaml.data).take i ++
          removeGo sub.data ((splitNLChars yaml.data).drop (i + 1)) true := by
        rw [removeGo_enter hentry]
    _ = (splitNLChars yaml.data).take i := by
        rw [removeGo_drop_all hstay]
        simp

/-- Witness for C2: both step headers contain `step`, so the whole
document from the first header on is removed and only the three leading
lines survive. -/
theorem c2_witness :
    removeStepBlock
      "on: push\njobs:\n  steps:\n      - name: step one\n        run: a\n      - name: step two\n        run: b"
      "step"
      = ⟨joinChars ((splitNLChars
          ("on: push\njobs:\n  steps:\n      - name: step one\n        run: a\n      - name: step two\n        run: b" : String).data).take 3)⟩ :=
  c2_removeStepBlock_all_match
    "on: push\njobs:\n  steps:\n      - name: step one\n        run: a\n      - name: step two\n        run: b"
    "step" 3 (by decide) (by decide) (by decide) (by decide) (by decide)

/-- C4: for a document made of three step blocks in sequence whose middle
header matches the target, `removeStepBlock` keeps the first and third
blocks verbatim and drops the matched header with its whole body; and
removing the final step of a document (no following sibling) removes it
cleanly to the end of the document. -/
theorem c4_removeStepBlock_middle_and_last :
    (∀ (yaml sub : String) (hA : List Char) (bodyA : List (List Char))
        (hB : List Char) (bodyB : List (List Char)) (hC : List Char)
        (bodyC : List (List Char)),
      splitNLChars yaml.data = hA :: (bodyA ++ hB :: (bodyB ++ hC :: bodyC)) →
      (∀ l ∈ hA :: bodyA, entryL sub.data l = false) →
      entryL sub.data hB = true →
      (∀ l ∈ bodyB, exitsSkipL sub.data l = false) →
      isBoundaryL hC = true →
      includesL sub.data (lineTrim hC) = false →
      (∀ l ∈ bodyC, entryL sub.data l = false) →
      removeStepBlock yaml sub = ⟨joinChars (hA :: (bodyA ++ hC :: bodyC))⟩)
    ∧ (∀ (yaml sub : String) (pre : List (List Char)) (hB : List Char)
        (bodyB : List (List Char)),
      splitNLChars yaml.data = pre ++ hB :: bodyB →
      (∀ l ∈ pre, entryL sub.data l = false) →
      entryL sub.data hB = true →
      (∀ l ∈ bodyB, exitsSkipL sub.data l = false) →
      removeStepBlock yaml sub = ⟨joinChars pre⟩) := by
  constructor
  · intro yaml sub hA bodyA hB bodyB hC bodyC hsplit hkeepA hentry hstayB
      hbC hiC hkeepC
    unfold removeStepBlock
    congr 2
    rw [hsplit]
    have hshape : hA :: (bodyA ++ hB :: (bodyB ++ hC :: bodyC))
        = (hA :: bodyA) ++ (hB :: (bodyB ++ hC :: bodyC)) := by simp
    rw [hshape, removeGo_keep_append hkeepA, removeGo_enter hentry,
      removeGo_drop_append hstayB, removeGo_exit hbC hiC,
      removeGo_keep_all hkeepC]
    simp
  · intro yaml sub pre hB bodyB hsplit hkeep hentry hstay
    unfold removeStepBlock
    congr 2
    rw [hsplit, removeGo_keep_append hkeep, removeGo_enter hentry,
      removeGo_drop_all hstay]
    simp

/-- Witness for C4 at the concrete A/B/C document of the specification:
removing B keeps A and C verbatim; removing C (the final step) removes it
to end of document. -/
theorem c4_witness :
    removeStepBlock
      "      - name: A\n        run: echo a\n      - name: B\n        run: echo b\n      - name: C\n        run: echo c"
      "B"
      = "      - name: A\n        run: echo a\n      - name: C\n        run: echo c"
    ∧ removeStepBlock
      "      - name: A\n        run: echo a\n      - name: C\n        run: echo c"
      "C"
      = "      - name: A\n        run: echo a" := by
  constructor
  · have h := c4_removeStepBlock_middle_and_last.1
      "      - name: A\n        run: echo a\n      - name: B\n        run: echo b\n      - name: C\n        run: echo c"
      "B"
      ("      - name: A".data) [("        run: echo a").data]
      ("      - name: B".data) [("        run: echo b").data]
      ("      - name: C".data) [("        run: echo c").data]
      (by decide) (by decide) (by decide) (by decide) (by decide) (by decide)
      (by decide)
    exact h.trans (by decide)
  · have h := c4_removeStepBlock_middle_and_last.2
      "      - name: A\n        run: echo a\n      - name: C\n        run: echo c"
      "C"
      [("      - name: A").data, ("        run: echo a").data]
      ("      - name: C".data) [("        run: echo c").data]
      (by decide) (by decide) (by decide) (by decide)
    exact h.trans (by decide)

/-- A line with no leading whitespace never matches the boundary regex
(which demands at least one leading whitespace character). -/
theorem isBoundaryL_of_no_indent {l : List Char}
    (h : (l.takeWhile isWS).length = 0) : isBoundaryL l = false := by
  cases l with
  | nil => rfl
  | cons c cs =>
    by_cases hw : isWS c = true
    · rw [List.takeWhile_cons_of_pos hw] at h
      simp at h
    · simp only [isBoundaryL]
      rw [Bool.eq_false_iff.mpr hw]
      rfl

/-- C9: the skip-exit boundary is whitespace-anchored and
indentation-blind.  First part: any line of whitespace followed by a step
marker ends skipping, even one more deeply indented than the removed
header — such a list item inside the removed body ends removal early and
the remaining lines are retained.  Second part: a matching header at
column zero (no leading whitespace) never ends skipping, so everything
to the end of the document is dropped. -/
theorem c9_boundary_indentation_blind :
    (∀ (yaml sub : String) (hB : List Char) (body1 : List (List Char))
        (deep : List Char) (rest : List (List Char)),
      splitNLChars yaml.data = hB :: (body1 ++ deep :: rest) →
      entryL sub.data hB = true →
      (∀ l ∈ body1, exitsSkipL sub.data l = false) →
      isBoundaryL deep = true →
      includesL sub.data (lineTrim deep) = false →
      (hB.takeWhile isWS).length < (deep.takeWhile isWS).length →
      (∀ l ∈ rest, entryL sub.data l = false) →
      removeStepBlock yaml sub = ⟨joinChars (deep :: rest)⟩)
    ∧ (∀ (yaml sub : String) (hB : List Char) (body : List (List Char))
        (c0 : List Char) (rest : List (List Char)),
      splitNLChars yaml.data = hB :: (body ++ c0 :: rest) →
      entryL sub.data hB = true →
      (∀ l ∈ body, exitsSkipL sub.data l = false) →
      (c0.takeWhile isWS).length = 0 →
      stepHeaderL c0 = true →
      includesL sub.data (lineTrim c0) = true →
      (∀ l ∈ rest, exitsSkipL sub.data l = false) →
      removeStepBlock yaml sub = "") := by
  constructor
  · intro yaml sub hB body1 deep rest hsplit hentry hstay hbdeep hideep
      hdepth hkeep
    unfold removeStepBlock
    congr 2
    rw [hsplit, removeGo_enter hentry, removeGo_drop_append hstay,
      removeGo_exit hbdeep hideep, removeGo_keep_all hkeep]
  · intro yaml sub hB body c0 rest hsplit hentry hstay hc0 hhead hinc hrest
    have hall : ∀ l ∈ c0 :: rest, exitsSkipL sub.data l = false := by
      intro l hl
      rcases List.mem_cons.mp hl with hl0 | hlr
      · subst hl0
        unfold exitsSkipL
        rw [isBoundaryL_of_no_indent hc0]
        rfl
      · exact hrest l hlr
    unfold removeStepBlock
    rw [hsplit, removeGo_enter hentry, removeGo_drop_append hstay,
      removeGo_drop_all hall]
    rfl

/-- Witness for C9: a deeper-indented `- run:` list item inside the
removed body ends skipping and is retained together with the following
line, while a matching column-zero header leaves the scan skipping to the
end and the result empty. -/
theorem c9_witness :
    removeStepBlock
      "      - name: Remove me\n        env: X\n        - run: cleanup\n        more: body"
      "Remove"
      = "        - run: cleanup\n        more: body"
    ∧ removeStepBlock
      "      - name: Remove me\n        env: X\n- name: Remove me too\n  stuff: x"
      "Remove"
      = "" := by
  constructor
  · have h := c9_boundary_indentation_blind.1
      "      - name: Remove me\n        env: X\n        - run: cleanup\n        more: body"
      "Remove"
      ("      - name: Remove me".data) [("        env: X").data]
      ("        - run: cleanup".data) [("        more: body").data]
      (by decide) (by decide) (by decide) (by decide) (by decide) (by decide)
      (by decide)
    exact h.trans (by decide)
  · exact c9_boundary_indentation_blind.2
      "      - name: Remove me\n        env: X\n- name: Remove me too\n  stuff: x"
      "Remove"
      ("      - name: Remove me".data) [("        env: X").data]
      ("- name: Remove me too".data) [("  stuff: x").data]
      (by decide) (by decide) (by decide) (by decide) (by decide) (by decide)
      (by decide)

theorem copyFile_exists_self (force : Bool) (fs : FS) (d c : String) :
    existsFS d (copyFile force fs d c).1 = true := by
  unfold copyFile
  by_cases hc : (existsFS d fs && !force) = true
  · rw [if_pos hc]
    exact (Bool.and_eq_true_iff.mp hc).1
  · rw [if_neg hc]
    simp [existsFS, writeFS]

theorem copyFile_exists_mono (force : Bool) (fs : FS) (d c p : String)
    (h : existsFS p fs = true) :
    existsFS p (copyFile force fs d c).1 = true := by
  unfold copyFile
  by_cases hc : (existsFS d fs && !force) = true
  · rw [if_pos hc]
    exact h
  · rw [if_neg hc]
    by_cases hp : p = d
    · simp [existsFS, writeFS, hp]
    · simp only [existsFS, writeFS, if_neg hp]
      exact h

theorem runCopy_exists_mono (force : Bool)
    (files : List (String × String)) (fs : FS) (p : String)
    (h : existsFS p fs = true) :
    existsFS p (runCopy force files fs).1 = true := by
  induction files generalizing fs with
  | nil => exact h
  | cons dc rest ih =>
    obtain ⟨d, c⟩ := dc
    exact ih _ (copyFile_exists_mono force fs d c p h)

theorem runCopy_exists_all (force : Bool)
    (files : List (String × String)) (fs : FS) :
    ∀ dc ∈ files, existsFS dc.1 (runCopy force files fs).1 = true := by
  induction files generalizing fs with
  | nil => intro dc hdc; cases hdc
  | cons dc0 rest ih =>
    intro dc hdc
    obtain ⟨d, c⟩ := dc0
    rcases List.mem_cons.mp hdc with h0 | hr
    · subst h0
      exact runCopy_exists_mono force rest _ _ (copyFile_exists_self force fs d c)
    · exact ih _ dc hr

theorem runCopy_all_skipped (files : List (String × String)) (fs : FS)
    (h : ∀ dc ∈ files, existsFS dc.1 fs = true) :
    runCopy false files fs = (fs, files.map fun _ => CopyStatus.skipped) := by
  induction files with
  | nil => rfl
  | cons dc rest ih =>
    obtain ⟨d, c⟩ := dc
    have hd : existsFS d fs = true := h (d, c) (by simp)
    have hcf : copyFile false fs d c = (fs, CopyStatus.skipped) := by
      simp [copyFile, hd]
    simp only [runCopy, hcf]
    rw [ih (fun dc2 h2 => h (dc2) (by simp [h2]))]
    simp

/-- C1 (amended): the copy-based materializer of `src/index.js` skips an
existing target when `--force` is disabled, leaving the filesystem
untouched and reporting `Skipped`; consequently a second full copy run
with force disabled changes nothing and reports every file as skipped. -/
theorem c1_copy_skip_idempotent :
    (∀ (fs : FS) (d c : String), existsFS d fs = true →
      copyFile false fs d c = (fs, CopyStatus.skipped))
    ∧ (∀ (force : Bool) (files : List (String × String)) (fs : FS),
      runCopy false files (runCopy force files fs).1
        = ((runCopy force files fs).1,
            files.map fun _ => CopyStatus.skipped)) := by
  constructor
  · intro fs d c h
    simp [copyFile, h]
  · intro force files fs
    exact runCopy_all_skipped files _ (runCopy_exists_all force files fs)

/-- A one-file filesystem holding an existing deploy script. -/
def fsDeploy : FS := writeFS "scripts/deploy.sh" "old" (fun _ => none)

/-- Counterexample for C1 as stated: the interactive scaffolder's
`writeFile` materialization (cited by the claim) overwrites an existing
target unconditionally — there is no overwrite flag to disable — so the
existing file's bytes change and no `Skipped` outcome exists. -/
theorem c1_writeFile_overwrites :
    fsDeploy "scripts/deploy.sh" = some "old"
    ∧ writeFile "scripts/deploy.sh" "new" fsDeploy "scripts/deploy.sh"
        = some "new"
    ∧ ("new" : String) ≠ "old" := by
  refine ⟨by decide, by decide, by decide⟩

/-- Witness for C1 (amended): a pre-existing workflow file is skipped
and a two-element run is all-skipped the second time. -/
theorem c1_witness :
    copyFile false fsDeploy "scripts/deploy.sh" "fresh"
      = (fsDeploy, CopyStatus.skipped)
    ∧ runCopy false [("a.yml", "x"), ("b.yml", "y")]
        (runCopy false [("a.yml", "x"), ("b.yml", "y")] (fun _ => none)).1
      = ((runCopy false [("a.yml", "x"), ("b.yml", "y")] (fun _ => none)).1,
          [CopyStatus.skipped, CopyStatus.skipped]) :=
  ⟨c1_copy_skip_idempotent.1 fsDeploy "scripts/deploy.sh" "fresh" (by decide),
    c1_copy_skip_idempotent.2 false [("a.yml", "x"), ("b.yml", "y")]
      (fun _ => none)⟩

/-- The Node.js preset of the repository, used for concrete instances. -/
def presetEx : Preset :=
  ⟨some 3000, some "20", "npm ci", "npm run lint", "npm test",
    some "npm run build", some "/health"⟩

/-- An older-variant configuration whose project name needs sanitising. -/
def cfgOldEx : ConfigOld :=
  ⟨"My App", "node", "main", "npm ci", "npm test", true, ""⟩

/-- A richer-variant configuration with the same project name. -/
def cfgRichEx : Config :=
  ⟨"My App", "node", "main", "staging", "npm ci", "npm run lint", "npm test",
    true, "production", ""⟩

/-- Counterexample for C8 as stated: in the older interactive variant the
`APP_NAME` value is the raw project name, so for the input `My App` it
keeps the space and the uppercase letter — both outside `[a-z0-9-_]`. -/
theorem c8_appname_unsanitised :
    List.lookup "APP_NAME" (buildVarsOld cfgOldEx presetEx)
      = some (some "My App")
    ∧ (' ' ∈ ("My App" : String).data) ∧ isSlugChar ' ' = false
    ∧ ('M' ∈ ("My App" : String).data) ∧ isSlugChar 'M' = false := by
  refine ⟨by decide, by decide, by decide, by decide, by decide⟩

/-- C8 (amended): the sanitised identifier equals the input lowercased
with every character outside `[a-z0-9-_]` removed and therefore contains
only characters of that set; in the richer variant both `APP_NAME` and
`IMAGE_NAME` are this identifier, while in the older variant only
`IMAGE_NAME` is — its `APP_NAME` is the raw project name. -/
theorem c8_slug_sanitisation :
    (∀ s : String, ∀ c ∈ (imageNameOf s).data, isSlugChar c = true)
    ∧ (∀ (cfg : Config) (preset : Preset),
        List.lookup "APP_NAME" (buildVarsRich cfg preset)
          = some (some (imageNameOf cfg.projectName))
        ∧ List.lookup "IMAGE_NAME" (buildVarsRich cfg preset)
          = some (some (imageNameOf cfg.projectName)))
    ∧ (∀ (cfg : ConfigOld) (preset : Preset),
        List.lookup "IMAGE_NAME" (buildVarsOld cfg preset)
          = some (some (imageNameOf cfg.projectName))
        ∧ List.lookup "APP_NAME" (buildVarsOld cfg preset)
          = some (some cfg.projectName)) := by
  refine ⟨?_, fun cfg preset => ⟨rfl, rfl⟩, fun cfg preset => ⟨rfl, rfl⟩⟩
  intro s c hc
  exact (List.mem_filter.mp hc).2

/-- Witness for C8 (amended) at the concrete input `My App`. -/
theorem c8_witness :
    isSlugChar 'm' = true
    ∧ List.lookup "APP_NAME" (buildVarsRich cfgRichEx presetEx)
        = some (some (imageNameOf "My App"))
    ∧ List.lookup "IMAGE_NAME" (buildVarsOld cfgOldEx presetEx)
        = some (some (imageNameOf "My App")) :=
  ⟨c8_slug_sanitisation.1 "My App" 'm' (by decide),
    (c8_slug_sanitisation.2.1 cfgRichEx presetEx).1,
    (c8_slug_sanitisation.2.2 cfgOldEx presetEx).1⟩

/-- A template shape: plain segments interleaved with the placeholder
token of `key` (two opening braces, the key, two closing braces). -/
def sepJoin (key : List Char) : List (List Char) → List Char
  | [] => []
  | [s] => s
  | s :: s2 :: ss =>
    s ++ (braceL :: braceL :: (key ++ braceR :: braceR :: [])) ++
      sepJoin key (s2 :: ss)

theorem replaceAllP_sepJoin {key : List Char} (hg : goodKeyL key = true) :
    ∀ segs : List (List Char), (∀ seg ∈ segs, ∀ c ∈ seg, c ≠ braceL) →
      replaceAllP key [] (sepJoin key segs) = segs.flatten := by
  intro segs
  induction segs with
  | nil => intro _; simp [sepJoin, replaceAllP_nil]
  | cons s ss ih =>
    intro hseg
    cases ss with
    | nil =>
      have h1 : replaceAllP key [] (s ++ []) = s ++ replaceAllP key [] [] :=
        replaceAllP_seg (hseg s (by simp)) []
      simp only [sepJoin, List.flatten]
      simpa [replaceAllP_nil] using h1
    | cons s2 ss2 =>
      have hshape : sepJoin key (s :: s2 :: ss2)
          = s ++ (braceL :: braceL ::
              (key ++ braceR :: braceR :: sepJoin key (s2 :: ss2))) := by
        simp [sepJoin, List.append_assoc]
      rw [hshape, replaceAllP_seg (hseg s (by simp)),
        replaceAllP_cons_match (matchPlaceholder_tok hg _),
        ih (fun g hg2 => hseg g (by simp [hg2]))]
      simp [List.flatten]

/-- C7: placeholder substitution is total (it is a function defined on
all templates and variable maps); a key whose value is absent
(undefined/null) has each of its placeholder occurrences replaced by the
empty string; and a key that matches nowhere in the text causes no error
and leaves the text unchanged. -/
theorem c7_substitution_total_absent_ignored :
    (∀ (k : String) (v : Option String) (t : String),
      hasMatchP k.data t.data = false →
      replacePlaceholders t [(k, v)] = t)
    ∧ (∀ k : String, goodKeyL k.data = true →
      ∀ segs : List (List Char), (∀ seg ∈ segs, ∀ c ∈ seg, c ≠ braceL) →
        replacePlaceholders ⟨sepJoin k.data segs⟩ [(k, none)]
          = ⟨segs.flatten⟩) := by
  constructor
  · intro k v t h
    unfold replacePlaceholders
    simp only [List.foldl_cons, List.foldl_nil]
    rw [replaceAllP_of_not_hasMatchP h]
  · intro k hg segs hseg
    unfold replacePlaceholders
    simp only [List.foldl_cons, List.foldl_nil]
    exact congrArg String.mk (replaceAllP_sepJoin hg segs hseg)

/-- Witness for C7: the key `PORT` with an absent value erases both of
its occurrences, and a key matching nowhere leaves the text unchanged. -/
theorem c7_witness :
    replacePlaceholders "hello world" [("PORT", some "3000")] = "hello world"
    ∧ replacePlaceholders
        ⟨sepJoin ("PORT" : String).data
          [("port: " : String).data, (" of " : String).data,
            ("." : String).data]⟩
        [("PORT", none)]
      = ⟨(([("port: " : String).data, (" of " : String).data,
            ("." : String).data]).flatten)⟩ :=
  ⟨c7_substitution_total_absent_ignored.1 "PORT" (some "3000") "hello world"
      (by decide),
    c7_substitution_total_absent_ignored.2 "PORT" (by decide)
      [("port: " : String).data, (" of " : String).data,
        ("." : String).data] (by decide)⟩

/-- C6: placeholder matching is anchored by its delimiters: for every
template containing the token of `FOO` and every variable map whose keys
are identifier-like, include `FOOBAR` or any other keys, but not `FOO`,
the `FOO` token survives substitution verbatim — no partial key
collision — with the rest of the template processed around it. -/
theorem c6_no_partial_key_collision
    (vars : List (String × Option String))
    (hk : ∀ kv ∈ vars, goodKeyL kv.1.data = true ∧ kv.1 ≠ "FOO")
    (p s : String) :
    ∃ q : List Char,
      (replacePlaceholders (p ++ "\x7b\x7bFOO\x7d\x7d" ++ s) vars).data
        = q ++ ("\x7b\x7bFOO\x7d\x7d" : String).data
            ++ (replacePlaceholders s vars).data := by
  have hdata : (p ++ "\x7b\x7bFOO\x7d\x7d" ++ s).data
      = p.data ++ fooTok ++ s.data := by
    rw [String.data_append, String.data_append]
    rfl
  obtain ⟨q, hq⟩ := foldl_replace_protects vars hk p.data s.data
  refine ⟨q, ?_⟩
  unfold replacePlaceholders
  rw [hdata, hq]
  rfl

/-- Witness for C6: a map holding only the colliding key `FOOBAR` leaves
the token of `FOO` in place. -/
theorem c6_witness :
    ∃ q : List Char,
      (replacePlaceholders ("a " ++ "\x7b\x7bFOO\x7d\x7d" ++ " b")
          [("FOOBAR", some "x")]).data
        = q ++ ("\x7b\x7bFOO\x7d\x7d" : String).data
            ++ (replacePlaceholders " b" [("FOOBAR", some "x")]).data :=
  c6_no_partial_key_collision [("FOOBAR", some "x")] (by decide) "a " " b"

/-- C3: in the richer variant's production-mode orchestration, an empty
(trimmed-empty) migration command makes the deploy artifact the
substitution of the block-stripped template — `removeStepBlock` runs
before `replacePlaceholders`, never the reverse; the older variant
likewise strips its migration lines before substituting, using its
line filter. -/
theorem writeFS_app_ne {q p : String} (h : q ≠ p) (c : String) (fs : FS) :
    writeFS p c fs q = fs q := by
  simp [writeFS, h]

theorem writeFS_app_eq (p c : String) (fs : FS) : writeFS p c fs p = some c := by
  simp [writeFS]

/-- C3: in the richer variant's production-mode orchestration, an empty
(trimmed-empty) migration command makes the deploy artifact the
substitution of the block-stripped template — `removeStepBlock` runs
before `replacePlaceholders`, never the reverse; the older variant
likewise strips its migration lines (with its line filter) before
substituting. -/
theorem c3_removal_precedes_substitution :
    (∀ (cfg : Config) (preset : Preset) (repo : String → String) (fs : FS),
      cfg.mode = "production" →
      trimStr cfg.migrationCommand = "" →
      mainRich cfg preset repo fs ".github/workflows/deploy.yml"
        = some (replacePlaceholders
            (removeStepBlock (repo "workflows/deploy.yml.template")
              "Run migrations")
            (buildVarsRich cfg preset)))
    ∧ (∀ (tpl mc : String) (vars : List (String × Option String)),
      trimStr mc = "" →
      oldDeployYml tpl mc vars
        = replacePlaceholders (filterMigration tpl) vars) := by
  constructor
  · intro cfg preset repo fs hmode hmig
    unfold mainRich
    rw [hmode]
    rw [if_neg (by decide)]
    unfold mainProduction
    rw [if_pos hmig]
    simp only [writeFile]
    by_cases hd : cfg.useDocker = true
    · rw [if_pos hd]
      rw [apply_ite (fun f : FS => f ".github/workflows/deploy.yml")]
      simp [writeFS]
    · rw [if_neg hd]
      simp [writeFS]
  · intro tpl mc vars hmig
    unfold oldDeployYml
    rw [if_pos (Or.inr hmig)]

/-- Witness for C3 at a concrete production configuration with an empty
migration command. -/
theorem c3_witness :
    mainRich cfgRichEx presetEx (fun _ => "tpl") (fun _ => none)
      ".github/workflows/deploy.yml"
      = some (replacePlaceholders
          (removeStepBlock ((fun _ => "tpl") "workflows/deploy.yml.template")
            "Run migrations")
          (buildVarsRich cfgRichEx presetEx))
    ∧ oldDeployYml "tpl" "  " []
        = replacePlaceholders (filterMigration "tpl") [] :=
  ⟨c3_removal_precedes_substitution.1 cfgRichEx presetEx (fun _ => "tpl")
      (fun _ => none) (by decide) (by decide),
    c3_removal_precedes_substitution.2 "tpl" "  " [] (by decide)⟩

/-- C10: with Docker enabled, in both the simple-mode and the
production-mode branch of the interactive scaffolder, `.dockerignore` is
written only when absent — a pre-existing one keeps its exact content —
while `Dockerfile` is written unconditionally on every run; the two
sibling artifacts have different overwrite behaviour within one run. -/
theorem c10_dockerignore_guarded_dockerfile_not
    (cfg : Config) (preset : Preset) (repo : String → String) (fs : FS)
    (hd : cfg.useDocker = true) :
    (∀ c : String, fs ".dockerignore" = some c →
      mainSimple cfg preset repo fs ".dockerignore" = some c
      ∧ mainProduction cfg preset repo fs ".dockerignore" = some c)
    ∧ (fs ".dockerignore" = none →
      mainSimple cfg preset repo fs ".dockerignore"
        = some (repo "docker/.dockerignore.template")
      ∧ mainProduction cfg preset repo fs ".dockerignore"
        = some (repo "docker/.dockerignore.template"))
    ∧ mainSimple cfg preset repo fs "Dockerfile"
      = some (replacePlaceholders
          (repo ("docker/Dockerfile." ++ cfg.stack ++ ".template"))
          (buildVarsRich cfg preset))
    ∧ mainProduction cfg preset repo fs "Dockerfile"
      = some (replacePlaceholders
          (repo ("docker/Dockerfile." ++ cfg.stack ++ ".template"))
          (buildVarsRich cfg preset)) := by
  refine ⟨?_, ?_, ?_, ?_⟩
  · intro c hc
    constructor
    · unfold mainSimple
      rw [if_pos hd]
      rw [apply_ite (fun f : FS => f ".dockerignore")]
      simp [writeFile, writeFS, existsFS, hc]
    · unfold mainProduction
      rw [if_pos hd]
      rw [apply_ite (fun f : FS => f ".dockerignore")]
      simp [writeFile, writeFS, existsFS, hc]
  · intro hc
    constructor
    · unfold mainSimple
      rw [if_pos hd]
      rw [apply_ite (fun f : FS => f ".dockerignore")]
      simp [writeFile, writeFS, existsFS, hc]
    · unfold mainProduction
      rw [if_pos hd]
      rw [apply_ite (fun f : FS => f ".dockerignore")]
      simp [writeFile, writeFS, existsFS, hc]
  · unfold mainSimple
    rw [if_pos hd]
    rw [apply_ite (fun f : FS => f "Dockerfile")]
    simp [writeFile, writeFS]
  · unfold mainProduction
    rw [if_pos hd]
    rw [apply_ite (fun f : FS => f "Dockerfile")]
    simp [writeFile, writeFS]

/-- Witness for C10: concrete run over a filesystem already holding a
`.dockerignore`. -/
theorem c10_witness :
    mainSimple cfgRichEx presetEx (fun _ => "tpl")
      (writeFS ".dockerignore" "mine" (fun _ => none)) ".dockerignore"
      = some "mine"
    ∧ mainProduction cfgRichEx presetEx (fun _ => "tpl")
        (writeFS ".dockerignore" "mine" (fun _ => none)) "Dockerfile"
      = some (replacePlaceholders
          ((fun _ => "tpl") ("docker/Dockerfile." ++ cfgRichEx.stack
            ++ ".template"))
          (buildVarsRich cfgRichEx presetEx)) :=
  ⟨((c10_dockerignore_guarded_dockerfile_not cfgRichEx presetEx
      (fun _ => "tpl") (writeFS ".dockerignore" "mine" (fun _ => none))
      (by decide)).1 "mine" (by decide)).1,
    (c10_dockerignore_guarded_dockerfile_not cfgRichEx presetEx
      (fun _ => "tpl") (writeFS ".dockerignore" "mine" (fun _ => none))
      (by decide)).2.2.2⟩

end Monolith
